import Mathlib

/-!
# Verification of the checklist-tree operations of the Loved Homes backend

This file gives a shallow embedding, in Lean 4, of the checklist-tree
data model and the mutation operations of `src/main.py` (functions
`parse_path`, `get_node_by_path`, `add_node`, `update_node`,
`delete_node`), together with theorems settling the specification
claims about them.

Modelling conventions:
* a Python checklist node is a dict with keys `id`, `title`, `kind` and
  optionally `children`; we model it as the inductive `Node` below,
  where `children : Option (List Node)` — `none` models the absence of
  the `"children"` key and `some l` its presence with list value `l`;
* Python raising `HTTPException` is modelled with `Except ApiError`;
* the Python code mutates the tree in place through list aliasing
  (`get_node_by_path` returns a reference into the tree and the caller
  pops/appends/assigns through it).  The functional embedding rebuilds
  the tree along the path instead.  The two agree because the walk
  yields a non-aliased fresh empty list only when the node's children
  are absent or empty (`parent.get("children", []) or []`), and in that
  case every subsequent index check fails, so no mutation ever happens
  through a non-aliased list;
* the MongoDB property document is modelled by `Ctx`: a flag saying
  whether the property id string parses as an ObjectId, and the
  `checklist` field of the document when it exists.  The final
  `db["property"].update_one` write of each handler is modelled by
  `store_after_*`, which replaces the stored checklist only when the
  handler returned successfully, mirroring the fact that in the code
  the write is the last statement and is unreachable after a raise.
-/

/-- A checklist node, as built and manipulated by `main.py`: a dict with
`id`, `title`, `kind` and an optional `children` key.  `children = none`
models the key being absent from the dict. -/
inductive Node where
  | mk : String → String → String → Option (List Node) → Node
deriving Repr

def Node.id : Node → String
  | .mk i _ _ _ => i

def Node.title : Node → String
  | .mk _ t _ _ => t

def Node.kind : Node → String
  | .mk _ _ k _ => k

def Node.children : Node → Option (List Node)
  | .mk _ _ _ c => c

def Node.withTitle : Node → String → Node
  | .mk i _ k c, t => .mk i t k c

def Node.withKind : Node → String → Node
  | .mk i t _ c, k => .mk i t k c

def Node.withChildren : Node → Option (List Node) → Node
  | .mk i t k _, c => .mk i t k c

instance : Inhabited Node := ⟨.mk "" "" "" none⟩

/-- The sibling list obtained when descending into a node:
`parent.get("children", []) or []` in the source — the children list
when present, an empty list otherwise. -/
def Node.childrenD (n : Node) : List Node :=
  (n.children).getD []

mutual

/-- Number of nodes in the subtree rooted at a node (the node itself
plus all transitive children). -/
def nodeSize : Node → Nat
  | .mk _ _ _ c => 1 + optSize c

def optSize : Option (List Node) → Nat
  | none => 0
  | some l => listSize l

def listSize : List Node → Nat
  | [] => 0
  | n :: t => nodeSize n + listSize t

end

mutual

def decEqNode : (a b : Node) → Decidable (a = b)
  | .mk i1 t1 k1 c1, .mk i2 t2 k2 c2 =>
    match String.decEq i1 i2, String.decEq t1 t2, String.decEq k1 k2, decEqOpt c1 c2 with
    | isTrue h1, isTrue h2, isTrue h3, isTrue h4 => isTrue (by rw [h1, h2, h3, h4])
    | isFalse h1, _, _, _ => isFalse (fun he => by cases he; exact h1 rfl)
    | _, isFalse h2, _, _ => isFalse (fun he => by cases he; exact h2 rfl)
    | _, _, isFalse h3, _ => isFalse (fun he => by cases he; exact h3 rfl)
    | _, _, _, isFalse h4 => isFalse (fun he => by cases he; exact h4 rfl)

def decEqOpt : (a b : Option (List Node)) → Decidable (a = b)
  | none, none => isTrue rfl
  | none, some _ => isFalse (fun he => Option.noConfusion he)
  | some _, none => isFalse (fun he => Option.noConfusion he)
  | some l1, some l2 =>
    match decEqList l1 l2 with
    | isTrue h => isTrue (by rw [h])
    | isFalse h => isFalse (fun he => by cases he; exact h rfl)

def decEqList : (a b : List Node) → Decidable (a = b)
  | [], [] => isTrue rfl
  | [], _ :: _ => isFalse (fun he => List.noConfusion he)
  | _ :: _, [] => isFalse (fun he => List.noConfusion he)
  | a :: as, b :: bs =>
    match decEqNode a b, decEqList as bs with
    | isTrue h1, isTrue h2 => isTrue (by rw [h1, h2])
    | isFalse h1, _ => isFalse (fun he => by cases he; exact h1 rfl)
    | _, isFalse h2 => isFalse (fun he => by cases he; exact h2 rfl)

end

instance : DecidableEq Node := decEqNode

mutual

/-- The invariant of the spec's data model: a node has `children`
present exactly when its `kind` is "folder", recursively. -/
def goodNode : Node → Bool
  | .mk _ _ k none => !(k == "folder")
  | .mk _ _ k (some l) => (k == "folder") && goodList l

/-- `goodNode` holding at every node of a sibling list. -/
def goodList : List Node → Bool
  | [] => true
  | n :: t => goodNode n && goodList t

end

/-- The error cases raised by the handlers (`HTTPException`s in the
source, plus `valueError` for the uncaught `ValueError` that
`parse_path` lets escape on a non-numeric segment). -/
inductive ApiError where
  | invalidIdentifier
  | propertyNotFound
  | pathRequired
  | outOfRange
  | valueError
deriving Repr, DecidableEq

def exceptDecEq {ε α : Type} [DecidableEq ε] [DecidableEq α] : (a b : Except ε α) → Decidable (a = b)
  | .error e1, .error e2 =>
    match decEq e1 e2 with
    | isTrue h => isTrue (by rw [h])
    | isFalse h => isFalse (fun he => by cases he; exact h rfl)
  | .error _, .ok _ => isFalse (fun he => Except.noConfusion he)
  | .ok _, .error _ => isFalse (fun he => Except.noConfusion he)
  | .ok a, .ok b =>
    match decEq a b with
    | isTrue h => isTrue (by rw [h])
    | isFalse h => isFalse (fun he => by cases he; exact h rfl)

instance {ε α : Type} [DecidableEq ε] [DecidableEq α] : DecidableEq (Except ε α) := exceptDecEq

/-- The `path` request parameter: absent, a string, or a list of
integers (`Optional[Union[str, List[int]]]`). -/
inductive PathParam where
  | null
  | str (s : String)
  | ints (l : List Int)

/-- Whitespace characters stripped by Python's `str.strip()` (the ones
relevant here). -/
def pyWhitespace (c : Char) : Bool :=
  c = ' ' || c = '\t' || c = '\n' || c = '\r'

/-- Models Python `s.strip()`: remove leading and trailing whitespace. -/
def pyStrip (s : String) : String :=
  String.mk (((s.toList.dropWhile pyWhitespace).reverse.dropWhile pyWhitespace).reverse)

def splitOnCommaAux : List Char → List Char → List String
  | [], acc => [String.mk acc.reverse]
  | c :: rest, acc =>
    if c = ',' then String.mk acc.reverse :: splitOnCommaAux rest []
    else splitOnCommaAux rest (c :: acc)

/-- Models Python `s.split(',')`: the comma-separated segments of `s`,
blank segments included. -/
def pySplitComma (s : String) : List String :=
  splitOnCommaAux s.toList []

def digitsToNatAux : List Char → Nat → Option Nat
  | [], acc => some acc
  | c :: rest, acc =>
    if c.isDigit then digitsToNatAux rest (acc * 10 + (c.toNat - 48))
    else none

/-- Models Python `int(s)` on a decimal string: surrounding whitespace
tolerated, an optional sign, then one or more digits; `none` models
`ValueError`. -/
def pyInt (s : String) : Option Int :=
  match (pyStrip s).toList with
  | [] => none
  | '-' :: rest =>
    if rest = [] then none
    else (digitsToNatAux rest 0).map (fun n => -(n : Int))
  | '+' :: rest =>
    if rest = [] then none
    else (digitsToNatAux rest 0).map (fun n => (n : Int))
  | cs => (digitsToNatAux cs 0).map (fun n => (n : Int))

/-- `parse_path` (main.py lines 33-42): absent path maps to `[]`, an
integer list is taken as is, a string is `[]` when blank and otherwise
split on commas with blank segments skipped and the rest parsed as
integers. -/
def parse_path : PathParam → Except ApiError (List Int)
  | .null => .ok []
  | .ints l => .ok l
  | .str s =>
    if pyStrip s = "" then .ok []
    else
      match ((pySplitComma s).filter fun x => pyStrip x != "").mapM pyInt with
      | some l => .ok l
      | none => .error .valueError

/-- Request body of the insert operation (`NodeCreate`). -/
structure NodeCreate where
  title : String
  kind : String
  parent_path : List Int

/-- Request body of the update operation (`NodeUpdate`). -/
structure NodeUpdate where
  title : Option String
  kind : Option String

/-- Construction of `new_node` in `add_node` (main.py lines 181-187):
fresh id, given title, kind coerced to "item" unless exactly "item" or
"folder", and an empty children list exactly when the kind is
"folder". -/
def mkNewNode (freshId : String) (payload : NodeCreate) : Node :=
  let k := if payload.kind = "item" ∨ payload.kind = "folder" then payload.kind else "item"
  if k = "folder" then .mk freshId payload.title k (some [])
  else .mk freshId payload.title k none

/-- The loop of `get_node_by_path` (main.py lines 157-165): `parent` is
the accumulator initialised to `None`; at each step the current index
is checked against the current sibling list, and the walk descends into
the indexed node's children (an empty list when absent). -/
def get_node_by_path_walk : Option Node → List Node → List Int → Except ApiError (Option Node × List Node)
  | parent, node_list, [] => .ok (parent, node_list)
  | _, node_list, idx :: rest =>
    if idx < 0 ∨ (node_list.length : Int) ≤ idx then .error .outOfRange
    else
      let p := node_list.getD idx.toNat default
      get_node_by_path_walk (some p) p.childrenD rest

/-- `get_node_by_path(checklist, path)` as in the source. -/
def get_node_by_path (checklist : List Node) (path : List Int) : Except ApiError (Option Node × List Node) :=
  get_node_by_path_walk none checklist path

/-- The in-memory effect of `add_node` (main.py lines 179-195): with an
empty `parent_path` the new node is appended to the root list;
otherwise the walk of `get_node_by_path` leads to the parent, which
gets a `children` list if it has none (`setdefault("children", [])`,
even when the parent's kind is "item") and the new node appended to it.
Each step performs exactly the walk's range check; the functional
rebuild of the ancestors matches the source's in-place mutation through
the aliased lists. -/
def add_under : List Node → List Int → Node → Except ApiError (List Node)
  | node_list, [], new_node => .ok (node_list ++ [new_node])
  | node_list, [idx], new_node =>
    if idx < 0 ∨ (node_list.length : Int) ≤ idx then .error .outOfRange
    else
      let parent := node_list.getD idx.toNat default
      .ok (node_list.set idx.toNat (parent.withChildren (some (parent.childrenD ++ [new_node]))))
  | node_list, idx :: rest, new_node =>
    if idx < 0 ∨ (node_list.length : Int) ≤ idx then .error .outOfRange
    else
      let p := node_list.getD idx.toNat default
      match add_under p.childrenD rest new_node with
      | .error e => .error e
      | .ok newChildren => .ok (node_list.set idx.toNat (p.withChildren (some newChildren)))

/-- The field changes of `update_node` (main.py lines 217-225): set the
title when provided; when the provided kind is exactly "item" or
"folder", materialise an empty `children` on promotion to "folder" if
absent, drop `children` on demotion to "item" if present, and set the
kind. -/
def apply_update (node : Node) (payload : NodeUpdate) : Node :=
  let node1 := match payload.title with
    | some t => node.withTitle t
    | none => node
  match payload.kind with
  | some k =>
    if k = "item" ∨ k = "folder" then
      let node2 := if k = "folder" ∧ (node1.children).isNone then node1.withChildren (some []) else node1
      let node3 := if k = "item" ∧ (node2.children).isSome then node2.withChildren none else node2
      node3.withKind k
    else node1
  | none => node1

/-- `payload: NodeUpdate = None` leaves the node untouched
(main.py line 217). -/
def apply_update_opt (node : Node) : Option NodeUpdate → Node
  | some payload => apply_update node payload
  | none => node

/-- The in-memory effect of `update_node` on a parsed path (main.py
lines 211-225): walk the path's prefix as `get_node_by_path` does,
check the final index against the reached sibling list, and apply the
payload's changes to the node there.  An empty path is rejected
upstream (line 206); the functional rebuild of the ancestors matches
the source's in-place mutation through the aliased lists. -/
def update_at : List Node → List Int → Option NodeUpdate → Except ApiError (List Node × Node)
  | _, [], _ => .error .pathRequired
  | node_list, [idx], payload =>
    if idx < 0 ∨ (node_list.length : Int) ≤ idx then .error .outOfRange
    else
      let nodeNew := apply_update_opt (node_list.getD idx.toNat default) payload
      .ok (node_list.set idx.toNat nodeNew, nodeNew)
  | node_list, idx :: rest, payload =>
    if idx < 0 ∨ (node_list.length : Int) ≤ idx then .error .outOfRange
    else
      let p := node_list.getD idx.toNat default
      match update_at p.childrenD rest payload with
      | .error e => .error e
      | .ok (newChildren, nodeNew) => .ok (node_list.set idx.toNat (p.withChildren (some newChildren)), nodeNew)

/-- The in-memory effect of `delete_node` on a parsed path (main.py
lines 241-246): walk the path's prefix, check the final index, and pop
the element there (`node_list.pop(idx)`), returning the new tree and
the removed node. -/
def delete_at : List Node → List Int → Except ApiError (List Node × Node)
  | _, [] => .error .pathRequired
  | node_list, [idx] =>
    if idx < 0 ∨ (node_list.length : Int) ≤ idx then .error .outOfRange
    else .ok (node_list.eraseIdx idx.toNat, node_list.getD idx.toNat default)
  | node_list, idx :: rest =>
    if idx < 0 ∨ (node_list.length : Int) ≤ idx then .error .outOfRange
    else
      let p := node_list.getD idx.toNat default
      match delete_at p.childrenD rest with
      | .error e => .error e
      | .ok (newChildren, removed) => .ok (node_list.set idx.toNat (p.withChildren (some newChildren)), removed)

/-- The state visible to one request for one property: whether the
property id string parses as an ObjectId, and the `checklist` field of
the stored document when the document exists. -/
structure Ctx where
  idValid : Bool
  doc : Option (List Node)

/-- `get_property_or_404` (main.py lines 145-154). -/
def get_property_or_404 (ctx : Ctx) : Except ApiError (List Node) :=
  if ctx.idValid then
    match ctx.doc with
    | none => .error .propertyNotFound
    | some checklist => .ok checklist
  else .error .invalidIdentifier

/-- The `add_node` handler (main.py lines 174-199), with the generated
uuid passed in as `freshId`: load the property, walk to the parent and
append the new node, and return the new checklist (which the final
`update_one` writes back) together with the created node. -/
def add_node (ctx : Ctx) (payload : NodeCreate) (freshId : String) : Except ApiError (List Node × Node) :=
  match get_property_or_404 ctx with
  | .error e => .error e
  | .ok checklist =>
    let new_node := mkNewNode freshId payload
    match add_under checklist payload.parent_path new_node with
    | .error e => .error e
    | .ok checklistNew => .ok (checklistNew, new_node)

/-- The `update_node` handler (main.py lines 202-229): parse the path,
reject an empty one, load the property, apply the update at the path,
and return the new checklist together with the updated node. -/
def update_node (ctx : Ctx) (path : PathParam) (payload : Option NodeUpdate) : Except ApiError (List Node × Node) :=
  match parse_path path with
  | .error e => .error e
  | .ok path_list =>
    if path_list = [] then .error .pathRequired
    else
      match get_property_or_404 ctx with
      | .error e => .error e
      | .ok checklist => update_at checklist path_list payload

/-- The `delete_node` handler (main.py lines 232-250): parse the path,
reject an empty one, load the property, pop the node at the path, and
return the new checklist together with the removed node. -/
def delete_node (ctx : Ctx) (path : PathParam) : Except ApiError (List Node × Node) :=
  match parse_path path with
  | .error e => .error e
  | .ok path_list =>
    if path_list = [] then .error .pathRequired
    else
      match get_property_or_404 ctx with
      | .error e => .error e
      | .ok checklist => delete_at checklist path_list

/-- The stored checklist after a call to `add_node`: the handler's
`db["property"].update_one` is its last statement, so the store changes
exactly when the handler runs to completion. -/
def store_after_add (ctx : Ctx) (payload : NodeCreate) (freshId : String) : Option (List Node) :=
  match add_node ctx payload freshId with
  | .ok (t, _) => some t
  | .error _ => ctx.doc

/-- The stored checklist after a call to `update_node`. -/
def store_after_update (ctx : Ctx) (path : PathParam) (payload : Option NodeUpdate) : Option (List Node) :=
  match update_node ctx path payload with
  | .ok (t, _) => some t
  | .error _ => ctx.doc

/-- The stored checklist after a call to `delete_node`. -/
def store_after_delete (ctx : Ctx) (path : PathParam) : Option (List Node) :=
  match delete_node ctx path with
  | .ok (t, _) => some t
  | .error _ => ctx.doc

/-- Written from the spec's words for the claim about `OutOfRange`: a
path is valid when at every step the index is nonnegative and below the
length of the sibling list being indexed at that step, where descending
into a node without `children` indexes an empty list. -/
def validPath : List Node → List Int → Bool
  | _, [] => true
  | siblings, i :: rest =>
    if 0 ≤ i ∧ i < (siblings.length : Int) then
      validPath (siblings.getD i.toNat default).childrenD rest
    else false

/-- The sibling list reached by walking a path of indices from a root
list, each step descending into the children of the indexed node. -/
def siblingsAt : List Node → List Int → Option (List Node)
  | siblings, [] => some siblings
  | siblings, i :: rest =>
    if 0 ≤ i ∧ i < (siblings.length : Int) then
      siblingsAt (siblings.getD i.toNat default).childrenD rest
    else none

/-- The node addressed by a non-empty path: the element at the path's
last index of the sibling list reached by the path's other indices. -/
def nodeAtPath : List Node → List Int → Option Node
  | _, [] => none
  | siblings, [i] =>
    if 0 ≤ i ∧ i < (siblings.length : Int) then some (siblings.getD i.toNat default)
    else none
  | siblings, i :: rest =>
    if 0 ≤ i ∧ i < (siblings.length : Int) then
      nodeAtPath (siblings.getD i.toNat default).childrenD rest
    else none

/-- Replacing the node addressed by a non-empty path, leaving every
position outside that node untouched. -/
def replaceAtPath : List Node → List Int → Node → List Node
  | siblings, [], _ => siblings
  | siblings, [i], nodeNew => siblings.set i.toNat nodeNew
  | siblings, i :: rest, nodeNew =>
    let p := siblings.getD i.toNat default
    siblings.set i.toNat (p.withChildren (some (replaceAtPath p.childrenD rest nodeNew)))


/-! ## Basic lemmas about nodes and lists -/

@[simp] theorem Node.id_withChildren (n : Node) (c : Option (List Node)) :
    (n.withChildren c).id = n.id := by cases n; rfl

@[simp] theorem Node.title_withChildren (n : Node) (c : Option (List Node)) :
    (n.withChildren c).title = n.title := by cases n; rfl

@[simp] theorem Node.kind_withChildren (n : Node) (c : Option (List Node)) :
    (n.withChildren c).kind = n.kind := by cases n; rfl

@[simp] theorem Node.children_withChildren (n : Node) (c : Option (List Node)) :
    (n.withChildren c).children = c := by cases n; rfl

@[simp] theorem Node.id_withTitle (n : Node) (t : String) :
    (n.withTitle t).id = n.id := by cases n; rfl

@[simp] theorem Node.kind_withTitle (n : Node) (t : String) :
    (n.withTitle t).kind = n.kind := by cases n; rfl

@[simp] theorem Node.children_withTitle (n : Node) (t : String) :
    (n.withTitle t).children = n.children := by cases n; rfl

@[simp] theorem Node.id_withKind (n : Node) (k : String) :
    (n.withKind k).id = n.id := by cases n; rfl

@[simp] theorem Node.title_withKind (n : Node) (k : String) :
    (n.withKind k).title = n.title := by cases n; rfl

@[simp] theorem Node.kind_withKind (n : Node) (k : String) :
    (n.withKind k).kind = k := by cases n; rfl

@[simp] theorem Node.children_withKind (n : Node) (k : String) :
    (n.withKind k).children = n.children := by cases n; rfl

@[simp] theorem Node.childrenD_withChildren (n : Node) (c : Option (List Node)) :
    (n.withChildren c).childrenD = c.getD [] := by cases n; rfl

theorem Node.childrenD_of_children_eq (n : Node) (l : List Node) (h : n.children = some l) :
    n.childrenD = l := by
  cases n with
  | mk i t k c => cases h; rfl

/-! ## Claim theorems: direct computations -/

/-- Claim C9 (confirmed): `parse_path` accepts a native integer
sequence or a comma-separated string; an absent value, the empty
string, or a whitespace-only string parse to the root path `[]`; blank
segments between commas are skipped, so "1,,2," parses to `[1, 2]`. -/
theorem parse_path_encodings :
    (∀ l : List Int, parse_path (PathParam.ints l) = .ok l) ∧
    parse_path PathParam.null = .ok [] ∧
    (∀ s : String, pyStrip s = "" → parse_path (PathParam.str s) = .ok []) ∧
    parse_path (PathParam.str "1,,2,") = .ok [1, 2] := by
  refine ⟨fun l => rfl, rfl, fun s hs => by simp [parse_path, hs], by decide⟩

/-- Witness for `parse_path_encodings` at the whitespace-only string
"  ". -/
theorem parse_path_encodings_witness :
    parse_path (PathParam.str "  ") = .ok [] :=
  parse_path_encodings.2.2.1 "  " (by decide)

/-- Claim C7 (confirmed): inserting with an empty parent path on tree
`T` yields `T ++ [newNode]`: the root list grows by exactly one and
every pre-existing element keeps its position and content. -/
theorem add_at_root_appends (t : List Node) (payload : NodeCreate) (freshId : String)
    (h : payload.parent_path = []) :
    add_node ⟨true, some t⟩ payload freshId =
      .ok (t ++ [mkNewNode freshId payload], mkNewNode freshId payload) ∧
    (t ++ [mkNewNode freshId payload]).length = t.length + 1 ∧
    ∀ j, j < t.length → (t ++ [mkNewNode freshId payload]).getD j default = t.getD j default := by
  refine ⟨?_, by simp, fun j hj => by simp [List.getD, List.getElem?_append_left hj]⟩
  simp [add_node, get_property_or_404, h, add_under]

/-- Witness for `add_at_root_appends` on the empty tree. -/
theorem add_at_root_appends_witness :
    add_node ⟨true, some []⟩ ⟨"a", "item", []⟩ "id0" =
      .ok ([] ++ [mkNewNode "id0" ⟨"a", "item", []⟩], mkNewNode "id0" ⟨"a", "item", []⟩) :=
  (add_at_root_appends [] ⟨"a", "item", []⟩ "id0" rfl).1

/-- Claim C5 (confirmed): whenever a handler raises a validation error
(invalid identifier, property not found, missing path, out of range)
the stored checklist is unchanged: each handler performs all its checks
before mutating, and the storage write is its final statement,
unreachable after a raise. -/
theorem validation_errors_leave_store_unchanged (ctx : Ctx) (payload : NodeCreate)
    (freshId : String) (path : PathParam) (pl : Option NodeUpdate) (e : ApiError) :
    (add_node ctx payload freshId = .error e → store_after_add ctx payload freshId = ctx.doc) ∧
    (update_node ctx path pl = .error e → store_after_update ctx path pl = ctx.doc) ∧
    (delete_node ctx path = .error e → store_after_delete ctx path = ctx.doc) := by
  refine ⟨fun h => ?_, fun h => ?_, fun h => ?_⟩
  · simp [store_after_add, h]
  · simp [store_after_update, h]
  · simp [store_after_delete, h]

/-- Witness for `validation_errors_leave_store_unchanged`: an update
with a missing path leaves the stored singleton tree in place. -/
theorem validation_errors_leave_store_unchanged_witness :
    store_after_update ⟨true, some [Node.mk "a" "t" "item" none]⟩ PathParam.null none =
      some [Node.mk "a" "t" "item" none] :=
  (validation_errors_leave_store_unchanged ⟨true, some [Node.mk "a" "t" "item" none]⟩
    ⟨"", "", []⟩ "" PathParam.null none ApiError.pathRequired).2.1 (by decide)

/-- Claim C1 (counterexample): inserting under a parent whose kind is
"item" (a valid path) succeeds and leaves that item node carrying a
`children` list, so insertion does not preserve the children-iff-folder
invariant. -/
theorem add_under_item_parent_breaks_invariant :
    goodList [Node.mk "a" "t" "item" none] = true ∧
    (nodeAtPath [Node.mk "a" "t" "item" none] [0] = some (Node.mk "a" "t" "item" none)) ∧
    add_node ⟨true, some [Node.mk "a" "t" "item" none]⟩ ⟨"s", "item", [0]⟩ "b" =
      .ok ([Node.mk "a" "t" "item" (some [Node.mk "b" "s" "item" none])],
        Node.mk "b" "s" "item" none) ∧
    goodList [Node.mk "a" "t" "item" (some [Node.mk "b" "s" "item" none])] = false := by
  decide

/-- Claim C4 (counterexample): at a valid path holding a node of kind
"item" that already carries a `children` list (a state insertion can
produce), updating the kind to "folder" keeps the existing non-empty
children instead of an empty list. -/
theorem promote_item_with_children_keeps_children :
    nodeAtPath [Node.mk "a" "t" "item" (some [Node.mk "b" "s" "item" none])] [0] =
      some (Node.mk "a" "t" "item" (some [Node.mk "b" "s" "item" none])) ∧
    update_node ⟨true, some [Node.mk "a" "t" "item" (some [Node.mk "b" "s" "item" none])]⟩
        (PathParam.ints [0]) (some ⟨none, some "folder"⟩) =
      .ok ([Node.mk "a" "t" "folder" (some [Node.mk "b" "s" "item" none])],
        Node.mk "a" "t" "folder" (some [Node.mk "b" "s" "item" none])) ∧
    (Node.mk "a" "t" "folder" (some [Node.mk "b" "s" "item" none])).children ≠ some [] := by
  decide

/-- Claim C3 (confirmed): the four-step scenario from the empty tree:
add "Inspect roof" as a folder at the root, add "Check shingles" as an
item under path [0], delete at [0, 0], then update [0] to kind "item";
the intermediate trees are exactly as specified and the final root node
has no `children` attribute. -/
theorem checklist_scenario (id1 id2 : String) :
    add_node ⟨true, some []⟩ ⟨"Inspect roof", "folder", []⟩ id1 =
      .ok ([Node.mk id1 "Inspect roof" "folder" (some [])],
        Node.mk id1 "Inspect roof" "folder" (some [])) ∧
    add_node ⟨true, some [Node.mk id1 "Inspect roof" "folder" (some [])]⟩
        ⟨"Check shingles", "item", [0]⟩ id2 =
      .ok ([Node.mk id1 "Inspect roof" "folder"
          (some [Node.mk id2 "Check shingles" "item" none])],
        Node.mk id2 "Check shingles" "item" none) ∧
    delete_node ⟨true, some [Node.mk id1 "Inspect roof" "folder"
        (some [Node.mk id2 "Check shingles" "item" none])]⟩ (PathParam.ints [0, 0]) =
      .ok ([Node.mk id1 "Inspect roof" "folder" (some [])],
        Node.mk id2 "Check shingles" "item" none) ∧
    update_node ⟨true, some [Node.mk id1 "Inspect roof" "folder" (some [])]⟩
        (PathParam.ints [0]) (some ⟨none, some "item"⟩) =
      .ok ([Node.mk id1 "Inspect roof" "item" none],
        Node.mk id1 "Inspect roof" "item" none) := by
  exact ⟨rfl, rfl, rfl, rfl⟩

/-! ## Path machinery: spec-side tree surgery and unfolding lemmas -/

/-- Removing the node addressed by a non-empty path, leaving every
position outside its sibling list untouched. -/
def eraseAtPath : List Node → List Int → List Node
  | siblings, [] => siblings
  | siblings, [i] => siblings.eraseIdx i.toNat
  | siblings, i :: rest =>
    let p := siblings.getD i.toNat default
    siblings.set i.toNat (p.withChildren (some (eraseAtPath p.childrenD rest)))

/-- Rewriting the sibling list reached by walking a whole path `q`:
the nested list at the end of `q` is replaced by `f` of itself and the
ancestors along `q` are rebuilt. -/
def modifyAt (f : List Node → List Node) : List Node → List Int → List Node
  | siblings, [] => f siblings
  | siblings, i :: rest =>
    let p := siblings.getD i.toNat default
    siblings.set i.toNat (p.withChildren (some (modifyAt f p.childrenD rest)))

theorem Node.withChildren_withChildren (n : Node) (a b : Option (List Node)) :
    (n.withChildren a).withChildren b = n.withChildren b := by cases n; rfl

theorem Node.withTitle_withTitle (n : Node) (a b : String) :
    (n.withTitle a).withTitle b = n.withTitle b := by cases n; rfl

theorem Node.withKind_withKind (n : Node) (a b : String) :
    (n.withKind a).withKind b = n.withKind b := by cases n; rfl

theorem Node.withTitle_self (n : Node) (t : String) (h : n.title = t) :
    n.withTitle t = n := by cases n; cases h; rfl

theorem Node.childrenD_ne_nil (n : Node) (h : n.childrenD ≠ []) :
    n.children = some n.childrenD := by
  cases n with
  | mk i t k c =>
    cases c with
    | none => exact absurd rfl h
    | some l => rfl

theorem List.getD_set_self (l : List Node) (k : Nat) (a : Node) (h : k < l.length) :
    (l.set k a).getD k default = a := by
  simp [List.getD, List.getElem?_set_self, h]

theorem List.getD_set_ne (l : List Node) (k j : Nat) (a : Node) (h : k ≠ j) :
    (l.set k a).getD j default = l.getD j default := by
  simp [List.getD, List.getElem?_set_ne h]

theorem nodeAtPath_cons_of_ne (s : List Node) (i : Int) (rest : List Int) (h : rest ≠ []) :
    nodeAtPath s (i :: rest) =
      (if 0 ≤ i ∧ i < (s.length : Int) then
        nodeAtPath (s.getD i.toNat default).childrenD rest
      else none) := by
  cases rest with
  | nil => exact absurd rfl h
  | cons j rest => rfl

theorem replaceAtPath_cons_of_ne (s : List Node) (i : Int) (rest : List Int) (h : rest ≠ [])
    (nodeNew : Node) :
    replaceAtPath s (i :: rest) nodeNew =
      s.set i.toNat ((s.getD i.toNat default).withChildren
        (some (replaceAtPath (s.getD i.toNat default).childrenD rest nodeNew))) := by
  cases rest with
  | nil => exact absurd rfl h
  | cons j rest => rfl

theorem eraseAtPath_cons_of_ne (s : List Node) (i : Int) (rest : List Int) (h : rest ≠ []) :
    eraseAtPath s (i :: rest) =
      s.set i.toNat ((s.getD i.toNat default).withChildren
        (some (eraseAtPath (s.getD i.toNat default).childrenD rest))) := by
  cases rest with
  | nil => exact absurd rfl h
  | cons j rest => rfl

theorem update_at_cons_of_ne (s : List Node) (i : Int) (rest : List Int) (h : rest ≠ [])
    (pl : Option NodeUpdate) :
    update_at s (i :: rest) pl =
      (if i < 0 ∨ (s.length : Int) ≤ i then .error .outOfRange
      else
        match update_at (s.getD i.toNat default).childrenD rest pl with
        | .error e => .error e
        | .ok (newChildren, nodeNew) =>
          .ok (s.set i.toNat ((s.getD i.toNat default).withChildren (some newChildren)), nodeNew)) := by
  cases rest with
  | nil => exact absurd rfl h
  | cons j rest => rfl

theorem delete_at_cons_of_ne (s : List Node) (i : Int) (rest : List Int) (h : rest ≠ []) :
    delete_at s (i :: rest) =
      (if i < 0 ∨ (s.length : Int) ≤ i then .error .outOfRange
      else
        match delete_at (s.getD i.toNat default).childrenD rest with
        | .error e => .error e
        | .ok (newChildren, removed) =>
          .ok (s.set i.toNat ((s.getD i.toNat default).withChildren (some newChildren)), removed)) := by
  cases rest with
  | nil => exact absurd rfl h
  | cons j rest => rfl

theorem add_under_cons_of_ne (s : List Node) (i : Int) (rest : List Int) (h : rest ≠ [])
    (nw : Node) :
    add_under s (i :: rest) nw =
      (if i < 0 ∨ (s.length : Int) ≤ i then .error .outOfRange
      else
        match add_under (s.getD i.toNat default).childrenD rest nw with
        | .error e => .error e
        | .ok newChildren =>
          .ok (s.set i.toNat ((s.getD i.toNat default).withChildren (some newChildren)))) := by
  cases rest with
  | nil => exact absurd rfl h
  | cons j rest => rfl

/-- `update_at` on a non-empty path resolves the addressed node and
replaces it with the updated node, or fails with `outOfRange` when the
path does not resolve. -/
theorem update_at_normal (p : List Int) (ns : List Node) (pl : Option NodeUpdate) (hp : p ≠ []) :
    update_at ns p pl =
      match nodeAtPath ns p with
      | some node => .ok (replaceAtPath ns p (apply_update_opt node pl), apply_update_opt node pl)
      | none => .error .outOfRange := by
  revert hp
  induction p generalizing ns with
  | nil => intro hp; exact absurd rfl hp
  | cons i rest ih =>
    intro hp
    cases rest with
    | nil =>
      by_cases hb : 0 ≤ i ∧ i < (ns.length : Int)
      · have hb' : ¬(i < 0 ∨ (ns.length : Int) ≤ i) := by omega
        simp [update_at, nodeAtPath, replaceAtPath, hb, hb']
      · have hb' : i < 0 ∨ (ns.length : Int) ≤ i := by omega
        simp [update_at, nodeAtPath, hb, hb']
    | cons j rest' =>
      have hne : (j :: rest') ≠ ([] : List Int) := by simp
      rw [update_at_cons_of_ne ns i (j :: rest') hne pl,
          nodeAtPath_cons_of_ne ns i (j :: rest') hne]
      by_cases hb : 0 ≤ i ∧ i < (ns.length : Int)
      · have hb' : ¬(i < 0 ∨ (ns.length : Int) ≤ i) := by omega
        rw [if_neg hb', if_pos hb, ih _ hne]
        cases hnp : nodeAtPath (ns.getD i.toNat default).childrenD (j :: rest') with
        | some node => simp [replaceAtPath_cons_of_ne ns i (j :: rest') hne]
        | none => simp
      · have hb' : i < 0 ∨ (ns.length : Int) ≤ i := by omega
        rw [if_pos hb', if_neg hb]

/-- `delete_at` on a non-empty path resolves the addressed node,
removes it and returns it, or fails with `outOfRange`. -/
theorem delete_at_normal (p : List Int) (ns : List Node) (hp : p ≠ []) :
    delete_at ns p =
      match nodeAtPath ns p with
      | some node => .ok (eraseAtPath ns p, node)
      | none => .error .outOfRange := by
  revert hp
  induction p generalizing ns with
  | nil => intro hp; exact absurd rfl hp
  | cons i rest ih =>
    intro hp
    cases rest with
    | nil =>
      by_cases hb : 0 ≤ i ∧ i < (ns.length : Int)
      · have hb' : ¬(i < 0 ∨ (ns.length : Int) ≤ i) := by omega
        simp [delete_at, nodeAtPath, eraseAtPath, hb, hb']
      · have hb' : i < 0 ∨ (ns.length : Int) ≤ i := by omega
        simp [delete_at, nodeAtPath, hb, hb']
    | cons j rest' =>
      have hne : (j :: rest') ≠ ([] : List Int) := by simp
      rw [delete_at_cons_of_ne ns i (j :: rest') hne,
          nodeAtPath_cons_of_ne ns i (j :: rest') hne]
      by_cases hb : 0 ≤ i ∧ i < (ns.length : Int)
      · have hb' : ¬(i < 0 ∨ (ns.length : Int) ≤ i) := by omega
        rw [if_neg hb', if_pos hb, ih _ hne]
        cases hnp : nodeAtPath (ns.getD i.toNat default).childrenD (j :: rest') with
        | some node => simp [eraseAtPath_cons_of_ne ns i (j :: rest') hne]
        | none => simp
      · have hb' : i < 0 ∨ (ns.length : Int) ≤ i := by omega
        rw [if_pos hb', if_neg hb]

/-- `add_under` on a non-empty parent path resolves the parent and
replaces it with the parent carrying the appended child, or fails with
`outOfRange`. -/
theorem add_under_normal (p : List Int) (ns : List Node) (nw : Node) (hp : p ≠ []) :
    add_under ns p nw =
      match nodeAtPath ns p with
      | some parent =>
        .ok (replaceAtPath ns p (parent.withChildren (some (parent.childrenD ++ [nw]))))
      | none => .error .outOfRange := by
  revert hp
  induction p generalizing ns with
  | nil => intro hp; exact absurd rfl hp
  | cons i rest ih =>
    intro hp
    cases rest with
    | nil =>
      by_cases hb : 0 ≤ i ∧ i < (ns.length : Int)
      · have hb' : ¬(i < 0 ∨ (ns.length : Int) ≤ i) := by omega
        simp [add_under, nodeAtPath, replaceAtPath, hb, hb']
      · have hb' : i < 0 ∨ (ns.length : Int) ≤ i := by omega
        simp [add_under, nodeAtPath, hb, hb']
    | cons j rest' =>
      have hne : (j :: rest') ≠ ([] : List Int) := by simp
      rw [add_under_cons_of_ne ns i (j :: rest') hne nw,
          nodeAtPath_cons_of_ne ns i (j :: rest') hne]
      by_cases hb : 0 ≤ i ∧ i < (ns.length : Int)
      · have hb' : ¬(i < 0 ∨ (ns.length : Int) ≤ i) := by omega
        rw [if_neg hb', if_pos hb, ih _ hne]
        cases hnp : nodeAtPath (ns.getD i.toNat default).childrenD (j :: rest') with
        | some node => simp [replaceAtPath_cons_of_ne ns i (j :: rest') hne]
        | none => simp
      · have hb' : i < 0 ∨ (ns.length : Int) ≤ i := by omega
        rw [if_pos hb', if_neg hb]

/-- The walk of `get_node_by_path` succeeds exactly on valid paths and
otherwise raises `outOfRange`, regardless of the accumulator. -/
theorem walk_cases (p : List Int) (parent : Option Node) (ns : List Node) :
    (validPath ns p = true ∧ ∃ x, get_node_by_path_walk parent ns p = .ok x) ∨
    (validPath ns p = false ∧ get_node_by_path_walk parent ns p = .error .outOfRange) := by
  induction p generalizing parent ns with
  | nil => exact Or.inl ⟨rfl, ⟨(parent, ns), rfl⟩⟩
  | cons i rest ih =>
    by_cases hb : 0 ≤ i ∧ i < (ns.length : Int)
    · have hb' : ¬(i < 0 ∨ (ns.length : Int) ≤ i) := by omega
      simp only [get_node_by_path_walk, validPath, if_pos hb, if_neg hb']
      exact ih (some (ns.getD i.toNat default)) (ns.getD i.toNat default).childrenD
    · have hb' : i < 0 ∨ (ns.length : Int) ≤ i := by omega
      simp [get_node_by_path_walk, validPath, hb, hb']

/-- On a non-empty path, `nodeAtPath` finds a node exactly when the
path is valid. -/
theorem nodeAtPath_isSome (p : List Int) (ns : List Node) (hp : p ≠ []) :
    (nodeAtPath ns p).isSome = validPath ns p := by
  revert hp
  induction p generalizing ns with
  | nil => intro hp; exact absurd rfl hp
  | cons i rest ih =>
    intro hp
    cases rest with
    | nil =>
      by_cases hb : 0 ≤ i ∧ i < (ns.length : Int)
      · simp [nodeAtPath, validPath, hb]
      · simp [nodeAtPath, validPath, hb]
    | cons j rest' =>
      have hne : (j :: rest') ≠ ([] : List Int) := by simp
      rw [nodeAtPath_cons_of_ne ns i (j :: rest') hne]
      by_cases hb : 0 ≤ i ∧ i < (ns.length : Int)
      · simp only [validPath, if_pos hb]
        exact ih _ hne
      · simp [validPath, hb]

/-- Claim C2 (confirmed): path resolution raises `OutOfRange` exactly
when some index of the path is negative or not below the length of the
sibling list indexed at that step (a node without children providing an
empty list), both for the walk of `get_node_by_path` and for the
prefix-walk plus final-index check performed by update and delete. -/
theorem outOfRange_iff_invalid_path (ns : List Node) (p : List Int) (pl : Option NodeUpdate) :
    (get_node_by_path ns p = .error .outOfRange ↔ validPath ns p = false) ∧
    (p ≠ [] → (update_at ns p pl = .error .outOfRange ↔ validPath ns p = false)) ∧
    (p ≠ [] → (delete_at ns p = .error .outOfRange ↔ validPath ns p = false)) := by
  refine ⟨?_, fun hp => ?_, fun hp => ?_⟩
  · rcases walk_cases p none ns with ⟨hv, x, hw⟩ | ⟨hv, hw⟩
    · simp [get_node_by_path, hw, hv]
    · simp [get_node_by_path, hw, hv]
  · rw [update_at_normal p ns pl hp]
    have hiso := nodeAtPath_isSome p ns hp
    cases hnp : nodeAtPath ns p with
    | some node => rw [hnp] at hiso; simp at hiso; simp [← hiso]
    | none => rw [hnp] at hiso; simp at hiso; simp [← hiso]
  · rw [delete_at_normal p ns hp]
    have hiso := nodeAtPath_isSome p ns hp
    cases hnp : nodeAtPath ns p with
    | some node => rw [hnp] at hiso; simp at hiso; simp [← hiso]
    | none => rw [hnp] at hiso; simp at hiso; simp [← hiso]

/-- Witness for `outOfRange_iff_invalid_path`: the spec's own example,
update at path [5] on a 2-element root list, raises `OutOfRange`. -/
theorem outOfRange_iff_invalid_path_witness :
    update_at [Node.mk "a" "x" "item" none, Node.mk "b" "y" "item" none] [5]
      (some ⟨some "z", none⟩) = .error .outOfRange :=
  ((outOfRange_iff_invalid_path [Node.mk "a" "x" "item" none, Node.mk "b" "y" "item" none]
    [5] (some ⟨some "z", none⟩)).2.1 (by decide)).mpr (by decide)

theorem replaceAtPath_append (q : List Int) (i : Int) (ns : List Node) (nodeNew : Node) :
    replaceAtPath ns (q ++ [i]) nodeNew =
      modifyAt (fun l => l.set i.toNat nodeNew) ns q := by
  induction q generalizing ns with
  | nil => rfl
  | cons j q' ih =>
    have hne : (q' ++ [i]) ≠ ([] : List Int) := by simp
    rw [List.cons_append, replaceAtPath_cons_of_ne ns j (q' ++ [i]) hne]
    simp only [modifyAt]
    rw [ih]

theorem eraseAtPath_append (q : List Int) (i : Int) (ns : List Node) :
    eraseAtPath ns (q ++ [i]) = modifyAt (fun l => l.eraseIdx i.toNat) ns q := by
  induction q generalizing ns with
  | nil => rfl
  | cons j q' ih =>
    have hne : (q' ++ [i]) ≠ ([] : List Int) := by simp
    rw [List.cons_append, eraseAtPath_cons_of_ne ns j (q' ++ [i]) hne]
    simp only [modifyAt]
    rw [ih]

theorem nodeAtPath_append (q : List Int) (i : Int) (ns : List Node) :
    nodeAtPath ns (q ++ [i]) =
      match siblingsAt ns q with
      | some l =>
        if 0 ≤ i ∧ i < (l.length : Int) then some (l.getD i.toNat default) else none
      | none => none := by
  induction q generalizing ns with
  | nil => rfl
  | cons j q' ih =>
    have hne : (q' ++ [i]) ≠ ([] : List Int) := by simp
    rw [List.cons_append, nodeAtPath_cons_of_ne ns j (q' ++ [i]) hne]
    simp only [siblingsAt]
    by_cases hb : 0 ≤ j ∧ j < (ns.length : Int)
    · rw [if_pos hb, if_pos hb, ih]
    · rw [if_neg hb, if_neg hb]

theorem siblingsAt_modifyAt (f : List Node → List Node) (q : List Int) (ns : List Node)
    (l : List Node) (h : siblingsAt ns q = some l) :
    siblingsAt (modifyAt f ns q) q = some (f l) := by
  induction q generalizing ns with
  | nil =>
    simp only [siblingsAt] at h
    cases h
    rfl
  | cons j q' ih =>
    simp only [siblingsAt] at h
    by_cases hb : 0 ≤ j ∧ j < (ns.length : Int)
    · rw [if_pos hb] at h
      have hlt : j.toNat < ns.length := by omega
      simp only [modifyAt, siblingsAt]
      have hlen : ((ns.set j.toNat ((ns.getD j.toNat default).withChildren
          (some (modifyAt f (ns.getD j.toNat default).childrenD q')))).length : Int)
          = (ns.length : Int) := by simp
      rw [if_pos (by rw [hlen]; exact hb)]
      rw [List.getD_set_self _ _ _ hlt]
      rw [Node.childrenD_withChildren]
      exact ih _ h
    · rw [if_neg hb] at h
      cases h

theorem nodeSize_eq_childrenD (n : Node) : nodeSize n = 1 + listSize n.childrenD := by
  cases n with
  | mk i t k c => cases c <;> rfl

theorem nodeSize_withChildren_some (n : Node) (m : List Node) :
    nodeSize (n.withChildren (some m)) = 1 + listSize m := by
  cases n; rfl

theorem listSize_set (l : List Node) (k : Nat) (a : Node) (h : k < l.length) :
    listSize (l.set k a) + nodeSize (l.getD k default) = listSize l + nodeSize a := by
  induction l generalizing k with
  | nil => simp at h
  | cons b bs ih =>
    cases k with
    | zero => simp [listSize, List.getD]; omega
    | succ k =>
      have hk : k < bs.length := by simpa using h
      simp only [List.set_cons_succ, listSize, List.getD_cons_succ]
      have := ih k hk
      omega

theorem listSize_eraseIdx (l : List Node) (k : Nat) (h : k < l.length) :
    listSize (l.eraseIdx k) + nodeSize (l.getD k default) = listSize l := by
  induction l generalizing k with
  | nil => simp at h
  | cons b bs ih =>
    cases k with
    | zero => simp [listSize, List.getD]; omega
    | succ k =>
      have hk : k < bs.length := by simpa using h
      simp only [List.eraseIdx_cons_succ, listSize, List.getD_cons_succ]
      have := ih k hk
      omega

theorem listSize_modifyAt (f : List Node → List Node) (q : List Int) (ns : List Node)
    (l : List Node) (h : siblingsAt ns q = some l) :
    listSize (modifyAt f ns q) + listSize l = listSize ns + listSize (f l) := by
  induction q generalizing ns with
  | nil =>
    simp only [siblingsAt] at h
    cases h
    simp only [modifyAt]
    omega
  | cons j q' ih =>
    simp only [siblingsAt] at h
    by_cases hb : 0 ≤ j ∧ j < (ns.length : Int)
    · rw [if_pos hb] at h
      have hlt : j.toNat < ns.length := by omega
      simp only [modifyAt]
      have hset := listSize_set ns j.toNat
        ((ns.getD j.toNat default).withChildren (some (modifyAt f (ns.getD j.toNat default).childrenD q'))) hlt
      rw [nodeSize_withChildren_some] at hset
      have hrec := ih _ h
      have hsz := nodeSize_eq_childrenD (ns.getD j.toNat default)
      omega
    · rw [if_neg hb] at h
      cases h

/-! ## Invariant lemmas -/

theorem goodNode_none (i t k : String) :
    goodNode (Node.mk i t k none) = !(k == "folder") := by rfl

theorem goodNode_some (i t k : String) (l : List Node) :
    goodNode (Node.mk i t k (some l)) = ((k == "folder") && goodList l) := by rfl

theorem goodList_cons (n : Node) (t : List Node) :
    goodList (n :: t) = (goodNode n && goodList t) := by rfl

theorem goodNode_withTitle (n : Node) (t : String) :
    goodNode (n.withTitle t) = goodNode n := by
  cases n with
  | mk i ti k c => cases c <;> rfl

theorem goodNode_childrenD (n : Node) (h : goodNode n = true) :
    goodList n.childrenD = true := by
  cases n with
  | mk i t k c =>
    cases c with
    | none => rfl
    | some l =>
      rw [goodNode_some] at h
      exact (Bool.and_elim_right h)

theorem goodNode_kind_of_children_some (n : Node) (l : List Node)
    (hc : n.children = some l) (h : goodNode n = true) : n.kind = "folder" := by
  cases n with
  | mk i t k c =>
    cases hc
    rw [goodNode_some] at h
    have := Bool.and_elim_left h
    simpa using this

theorem goodNode_withChildren_some_of_folder (n : Node) (m : List Node)
    (hk : n.kind = "folder") (hm : goodList m = true) :
    goodNode (n.withChildren (some m)) = true := by
  cases n with
  | mk i t k c =>
    cases hk
    rw [Node.withChildren, goodNode_some]
    simpa using hm

theorem goodList_getD (l : List Node) (k : Nat) (hg : goodList l = true) (hk : k < l.length) :
    goodNode (l.getD k default) = true := by
  induction l generalizing k with
  | nil => simp at hk
  | cons b bs ih =>
    rw [goodList_cons] at hg
    cases k with
    | zero => simpa [List.getD] using Bool.and_elim_left hg
    | succ k =>
      have hk' : k < bs.length := by simpa using hk
      rw [List.getD_cons_succ]
      exact ih k (Bool.and_elim_right hg) hk'

theorem goodList_set (l : List Node) (k : Nat) (a : Node)
    (hg : goodList l = true) (ha : goodNode a = true) :
    goodList (l.set k a) = true := by
  induction l generalizing k with
  | nil => rfl
  | cons b bs ih =>
    rw [goodList_cons] at hg
    cases k with
    | zero =>
      rw [List.set_cons_zero, goodList_cons, ha, Bool.and_elim_right hg]
      rfl
    | succ k =>
      rw [List.set_cons_succ, goodList_cons, Bool.and_elim_left hg,
        ih k (Bool.and_elim_right hg)]
      rfl

theorem goodList_eraseIdx (l : List Node) (k : Nat) (hg : goodList l = true) :
    goodList (l.eraseIdx k) = true := by
  induction l generalizing k with
  | nil => rfl
  | cons b bs ih =>
    rw [goodList_cons] at hg
    cases k with
    | zero => simpa using Bool.and_elim_right hg
    | succ k =>
      rw [List.eraseIdx_cons_succ, goodList_cons, Bool.and_elim_left hg,
        ih k (Bool.and_elim_right hg)]
      rfl

theorem goodList_append (l1 l2 : List Node) (h1 : goodList l1 = true) (h2 : goodList l2 = true) :
    goodList (l1 ++ l2) = true := by
  induction l1 with
  | nil => simpa using h2
  | cons b bs ih =>
    rw [goodList_cons] at h1
    rw [List.cons_append, goodList_cons, Bool.and_elim_left h1, ih (Bool.and_elim_right h1)]
    rfl

theorem goodList_siblingsAt (q : List Int) (ns : List Node) (l : List Node)
    (hg : goodList ns = true) (hs : siblingsAt ns q = some l) : goodList l = true := by
  induction q generalizing ns with
  | nil =>
    simp only [siblingsAt] at hs
    cases hs
    exact hg
  | cons j q' ih =>
    simp only [siblingsAt] at hs
    by_cases hb : 0 ≤ j ∧ j < (ns.length : Int)
    · rw [if_pos hb] at hs
      have hlt : j.toNat < ns.length := by omega
      have hn := goodList_getD ns j.toNat hg hlt
      exact ih _ (goodNode_childrenD _ hn) hs
    · rw [if_neg hb] at hs
      cases hs

/-- A successful walk of at least one more step forces the current
sibling list to be non-empty. -/
theorem siblingsAt_cons_ne_nil (j : Int) (q' : List Int) (ns : List Node) (l : List Node)
    (hs : siblingsAt ns (j :: q') = some l) : ns ≠ [] := by
  intro h
  subst h
  simp only [siblingsAt] at hs
  have : ¬(0 ≤ j ∧ j < (([] : List Node).length : Int)) := by
    simp only [List.length_nil, Nat.cast_zero]
    omega
  rw [if_neg this] at hs
  cases hs

theorem goodList_modifyAt (f : List Node → List Node) (q : List Int) (ns : List Node)
    (l : List Node) (hg : goodList ns = true) (hs : siblingsAt ns q = some l)
    (hne : l ≠ []) (hf : goodList (f l) = true) :
    goodList (modifyAt f ns q) = true := by
  induction q generalizing ns with
  | nil =>
    simp only [siblingsAt] at hs
    cases hs
    exact hf
  | cons j q' ih =>
    simp only [siblingsAt] at hs
    by_cases hb : 0 ≤ j ∧ j < (ns.length : Int)
    · rw [if_pos hb] at hs
      have hlt : j.toNat < ns.length := by omega
      have hn := goodList_getD ns j.toNat hg hlt
      have hcd : (ns.getD j.toNat default).childrenD ≠ [] := by
        cases q' with
        | nil =>
          simp only [siblingsAt] at hs
          cases hs
          exact hne
        | cons j2 q'' => exact siblingsAt_cons_ne_nil j2 q'' _ l hs
      have hfold : (ns.getD j.toNat default).kind = "folder" :=
        goodNode_kind_of_children_some _ _ (Node.childrenD_ne_nil _ hcd) hn
      have hmod : goodList (modifyAt f (ns.getD j.toNat default).childrenD q') = true :=
        ih _ (goodNode_childrenD _ hn) hs
      simp only [modifyAt]
      exact goodList_set ns j.toNat _ hg
        (goodNode_withChildren_some_of_folder _ _ hfold hmod)
    · rw [if_neg hb] at hs
      cases hs

/-! ## Lemmas about the field update of `update_node` -/

theorem Node.withKind_self (n : Node) (k : String) (h : n.kind = k) :
    n.withKind k = n := by cases n; cases h; rfl

theorem goodNode_reconstruct (n : Node) :
    goodNode n =
      (match n.children with
      | none => !(n.kind == "folder")
      | some l => (n.kind == "folder") && goodList l) := by
  cases n with
  | mk i t k c => cases c <;> rfl

theorem apply_update_invalid_kind (node : Node) (tOpt : Option String) (k : String)
    (hk : ¬(k = "item" ∨ k = "folder")) :
    apply_update node ⟨tOpt, some k⟩ =
      (match tOpt with
      | some t => node.withTitle t
      | none => node) := by
  simp [apply_update, hk]

theorem kind_apply_update_folder (node : Node) (tOpt : Option String) :
    (apply_update node ⟨tOpt, some "folder"⟩).kind = "folder" := by
  cases node with
  | mk i t k c =>
    cases tOpt <;> cases c <;>
      simp [apply_update, Node.withTitle, Node.withChildren, Node.withKind, Node.kind, Node.children]

theorem children_apply_update_folder (node : Node) (tOpt : Option String) :
    (apply_update node ⟨tOpt, some "folder"⟩).children = some node.childrenD := by
  cases node with
  | mk i t k c =>
    cases tOpt <;> cases c <;>
      simp [apply_update, Node.withTitle, Node.withChildren, Node.withKind, Node.children,
        Node.childrenD]

theorem kind_apply_update_item (node : Node) (tOpt : Option String) :
    (apply_update node ⟨tOpt, some "item"⟩).kind = "item" := by
  cases node with
  | mk i t k c =>
    cases tOpt <;> cases c <;>
      simp [apply_update, Node.withTitle, Node.withChildren, Node.withKind, Node.kind, Node.children]

theorem children_apply_update_item (node : Node) (tOpt : Option String) :
    (apply_update node ⟨tOpt, some "item"⟩).children = none := by
  cases node with
  | mk i t k c =>
    cases tOpt <;> cases c <;>
      simp [apply_update, Node.withTitle, Node.withChildren, Node.withKind, Node.children]

theorem id_apply_update_opt (node : Node) (pl : Option NodeUpdate) :
    (apply_update_opt node pl).id = node.id := by
  cases pl with
  | none => rfl
  | some payload =>
    rcases payload with ⟨tOpt, kOpt⟩
    cases node with
    | mk i t k c =>
      cases kOpt with
      | none =>
        cases tOpt <;> simp [apply_update_opt, apply_update, Node.withTitle, Node.id]
      | some kk =>
        by_cases hk : kk = "item" ∨ kk = "folder"
        · rcases hk with hk | hk <;> subst hk <;> cases tOpt <;> cases c <;>
            simp [apply_update_opt, apply_update, Node.withTitle, Node.withChildren,
              Node.withKind, Node.id, Node.children]
        · cases tOpt <;>
            simp [apply_update_opt, apply_update, hk, Node.withTitle, Node.id]

theorem children_apply_update_opt (node : Node) (pl : Option NodeUpdate) :
    (apply_update_opt node pl).children = node.children ∨
    ((apply_update_opt node pl).children = some [] ∧ node.children = none) ∨
    (apply_update_opt node pl).children = none := by
  cases pl with
  | none => exact Or.inl rfl
  | some payload =>
    rcases payload with ⟨tOpt, kOpt⟩
    cases kOpt with
    | none =>
      cases tOpt with
      | none => exact Or.inl rfl
      | some t => exact Or.inl (by simp [apply_update_opt, apply_update])
    | some kk =>
      by_cases hk : kk = "item" ∨ kk = "folder"
      · rcases hk with hk | hk
        · subst hk
          exact Or.inr (Or.inr (children_apply_update_item node tOpt))
        · subst hk
          have hc := children_apply_update_folder node tOpt
          cases node with
          | mk i t k c =>
            cases c with
            | none => exact Or.inr (Or.inl ⟨by simpa [Node.childrenD, Node.children] using hc, rfl⟩)
            | some l => exact Or.inl (by simpa [Node.childrenD, Node.children] using hc)
      · cases tOpt with
        | none => exact Or.inl (by simp [apply_update_opt, apply_update_invalid_kind node none _ hk])
        | some t => exact Or.inl (by simp [apply_update_opt, apply_update_invalid_kind node (some t) _ hk])

theorem goodNode_apply_update_opt (node : Node) (pl : Option NodeUpdate)
    (hg : goodNode node = true) : goodNode (apply_update_opt node pl) = true := by
  cases pl with
  | none => exact hg
  | some payload =>
    rcases payload with ⟨tOpt, kOpt⟩
    cases kOpt with
    | none =>
      cases tOpt with
      | none => exact hg
      | some t =>
        show goodNode (apply_update node ⟨some t, none⟩) = true
        have : apply_update node ⟨some t, none⟩ = node.withTitle t := by
          simp [apply_update]
        rw [this, goodNode_withTitle]
        exact hg
    | some kk =>
      by_cases hk : kk = "item" ∨ kk = "folder"
      · rcases hk with hk | hk
        · subst hk
          show goodNode (apply_update node ⟨tOpt, some "item"⟩) = true
          rw [goodNode_reconstruct, children_apply_update_item, kind_apply_update_item]
          simp
        · subst hk
          show goodNode (apply_update node ⟨tOpt, some "folder"⟩) = true
          rw [goodNode_reconstruct, children_apply_update_folder, kind_apply_update_folder]
          simpa using goodNode_childrenD node hg
      · show goodNode (apply_update node ⟨tOpt, some kk⟩) = true
        rw [apply_update_invalid_kind node tOpt kk hk]
        cases tOpt with
        | none => exact hg
        | some t => rw [goodNode_withTitle]; exact hg

theorem goodNode_nodeAtPath (p : List Int) (ns : List Node) (node : Node)
    (hg : goodList ns = true) (hnp : nodeAtPath ns p = some node) :
    goodNode node = true := by
  rcases List.eq_nil_or_concat p with rfl | ⟨q, i, hqi⟩
  · cases hnp
  · rw [List.concat_eq_append] at hqi
    subst hqi
    rw [nodeAtPath_append] at hnp
    cases hsq : siblingsAt ns q with
    | none => rw [hsq] at hnp; cases hnp
    | some l =>
      simp only [hsq] at hnp
      by_cases hb : 0 ≤ i ∧ i < (l.length : Int)
      · rw [if_pos hb] at hnp
        have hlt : i.toNat < l.length := by omega
        have hlg : goodList l = true := goodList_siblingsAt q ns l hg hsq
        obtain rfl : l.getD i.toNat default = node := by
          simpa using hnp
        exact goodList_getD l i.toNat hlg hlt
      · rw [if_neg hb] at hnp; cases hnp

theorem goodList_replaceAtPath_of (p : List Int) (ns : List Node) (node nodeNew : Node)
    (hg : goodList ns = true) (hnp : nodeAtPath ns p = some node)
    (hn' : goodNode nodeNew = true) :
    goodList (replaceAtPath ns p nodeNew) = true := by
  rcases List.eq_nil_or_concat p with rfl | ⟨q, i, hqi⟩
  · cases hnp
  · rw [List.concat_eq_append] at hqi
    subst hqi
    rw [nodeAtPath_append] at hnp
    cases hsq : siblingsAt ns q with
    | none => rw [hsq] at hnp; cases hnp
    | some l =>
      simp only [hsq] at hnp
      by_cases hb : 0 ≤ i ∧ i < (l.length : Int)
      · have hlt : i.toNat < l.length := by omega
        have hlg : goodList l = true := goodList_siblingsAt q ns l hg hsq
        have hlne : l ≠ [] := by
          intro h0; subst h0; simp at hlt
        rw [replaceAtPath_append]
        exact goodList_modifyAt _ q ns l hg hsq hlne
          (goodList_set l i.toNat nodeNew hlg hn')
      · rw [if_neg hb] at hnp; cases hnp

theorem goodList_eraseAtPath_of (p : List Int) (ns : List Node) (node : Node)
    (hg : goodList ns = true) (hnp : nodeAtPath ns p = some node) :
    goodList (eraseAtPath ns p) = true := by
  rcases List.eq_nil_or_concat p with rfl | ⟨q, i, hqi⟩
  · cases hnp
  · rw [List.concat_eq_append] at hqi
    subst hqi
    rw [nodeAtPath_append] at hnp
    cases hsq : siblingsAt ns q with
    | none => rw [hsq] at hnp; cases hnp
    | some l =>
      simp only [hsq] at hnp
      by_cases hb : 0 ≤ i ∧ i < (l.length : Int)
      · have hlt : i.toNat < l.length := by omega
        have hlg : goodList l = true := goodList_siblingsAt q ns l hg hsq
        have hlne : l ≠ [] := by
          intro h0; subst h0; simp at hlt
        rw [eraseAtPath_append]
        exact goodList_modifyAt _ q ns l hg hsq hlne (goodList_eraseIdx l i.toNat hlg)
      · rw [if_neg hb] at hnp; cases hnp

theorem modifyAt_modifyAt (f : List Node → List Node) (q : List Int) (ns l : List Node)
    (hs : siblingsAt ns q = some l) (hf : ∀ m, f (f m) = f m) :
    modifyAt f (modifyAt f ns q) q = modifyAt f ns q := by
  induction q generalizing ns with
  | nil => exact hf ns
  | cons j q' ih =>
    simp only [siblingsAt] at hs
    by_cases hb : 0 ≤ j ∧ j < (ns.length : Int)
    · rw [if_pos hb] at hs
      have hlt : j.toNat < ns.length := by omega
      simp only [modifyAt]
      rw [List.getD_set_self _ _ _ hlt, Node.childrenD_withChildren]
      simp only [Option.getD_some]
      rw [ih _ hs, Node.withChildren_withChildren, List.set_set]
    · rw [if_neg hb] at hs
      cases hs

theorem apply_update_idem (node : Node) (tOpt kOpt : Option String) :
    apply_update (apply_update node ⟨tOpt, kOpt⟩) ⟨tOpt, kOpt⟩ =
      apply_update node ⟨tOpt, kOpt⟩ := by
  cases node with
  | mk i t k c =>
    cases kOpt with
    | none => cases tOpt <;> cases c <;> simp [apply_update, Node.withTitle]
    | some kk =>
      by_cases hk : kk = "item" ∨ kk = "folder"
      · rcases hk with hk | hk <;> subst hk <;> cases tOpt <;> cases c <;>
          simp [apply_update, Node.withTitle, Node.withChildren, Node.withKind, Node.children]
      · cases tOpt <;> cases c <;> simp [apply_update, hk, Node.withTitle]

theorem apply_update_opt_idem (node : Node) (pl : Option NodeUpdate) :
    apply_update_opt (apply_update_opt node pl) pl = apply_update_opt node pl := by
  cases pl with
  | none => rfl
  | some payload =>
    rcases payload with ⟨tOpt, kOpt⟩
    exact apply_update_idem node tOpt kOpt

/-- A node built by `mkNewNode` always satisfies the invariant. -/
theorem goodNode_mkNewNode (freshId : String) (payload : NodeCreate) :
    goodNode (mkNewNode freshId payload) = true := by
  rcases payload with ⟨t, k, pp⟩
  by_cases hk : k = "item" ∨ k = "folder"
  · rcases hk with hk | hk <;> subst hk <;> simp [mkNewNode, goodNode_some, goodNode_none, goodList]
  · simp [mkNewNode, hk, goodNode_none]

/-- Claim C1 (amended): update and delete preserve the
children-iff-folder invariant on any tree satisfying it, and insert
preserves it when the parent path is empty or addresses a node of kind
"folder"; inserting under an "item" parent, however, creates a
`children` list on the item node and breaks the invariant (see the
counterexample), which is exactly the case the amendment excludes. -/
theorem mutations_preserve_children_iff_folder :
    (∀ (ns : List Node) (p : List Int) (pl : Option NodeUpdate) (t' : List Node) (n' : Node),
      goodList ns = true → update_at ns p pl = .ok (t', n') → goodList t' = true) ∧
    (∀ (ns : List Node) (p : List Int) (t' : List Node) (r : Node),
      goodList ns = true → delete_at ns p = .ok (t', r) → goodList t' = true) ∧
    (∀ (ns : List Node) (p : List Int) (nw : Node) (t' : List Node),
      goodList ns = true → goodNode nw = true →
      (p = [] ∨ ∃ parent, nodeAtPath ns p = some parent ∧ parent.kind = "folder") →
      add_under ns p nw = .ok t' → goodList t' = true) := by
  refine ⟨?_, ?_, ?_⟩
  · intro ns p pl t' n' hg h
    by_cases hp : p = []
    · subst hp; exact absurd h (by simp [update_at])
    · rw [update_at_normal p ns pl hp] at h
      cases hnp : nodeAtPath ns p with
      | none => rw [hnp] at h; simp at h
      | some node =>
        rw [hnp] at h
        simp only [Except.ok.injEq, Prod.mk.injEq] at h
        obtain ⟨ht, hn⟩ := h
        subst ht
        exact goodList_replaceAtPath_of p ns node _ hg hnp
          (goodNode_apply_update_opt node pl (goodNode_nodeAtPath p ns node hg hnp))
  · intro ns p t' r hg h
    by_cases hp : p = []
    · subst hp; exact absurd h (by simp [delete_at])
    · rw [delete_at_normal p ns hp] at h
      cases hnp : nodeAtPath ns p with
      | none => rw [hnp] at h; simp at h
      | some node =>
        rw [hnp] at h
        simp only [Except.ok.injEq, Prod.mk.injEq] at h
        obtain ⟨ht, hn⟩ := h
        subst ht
        exact goodList_eraseAtPath_of p ns node hg hnp
  · intro ns p nw t' hg hnw hparent h
    by_cases hp : p = []
    · subst hp
      simp only [add_under, Except.ok.injEq] at h
      subst h
      exact goodList_append ns [nw] hg (by simp [goodList_cons, hnw, goodList])
    · rw [add_under_normal p ns nw hp] at h
      rcases hparent with hfalse | ⟨parent, hnp, hkind⟩
      · exact absurd hfalse hp
      · rw [hnp] at h
        simp only [Except.ok.injEq] at h
        subst h
        have hgp : goodNode parent = true := goodNode_nodeAtPath p ns parent hg hnp
        refine goodList_replaceAtPath_of p ns parent _ hg hnp ?_
        exact goodNode_withChildren_some_of_folder parent _ hkind
          (goodList_append _ [nw] (goodNode_childrenD parent hgp)
            (by simp [goodList_cons, hnw, goodList]))

/-- Witness for `mutations_preserve_children_iff_folder`: promoting the
single item of a good singleton tree to a folder keeps the tree good. -/
theorem mutations_preserve_children_iff_folder_witness :
    goodList [Node.mk "a" "t" "folder" (some [])] = true :=
  mutations_preserve_children_iff_folder.1 [Node.mk "a" "t" "item" none] [0]
    (some ⟨none, some "folder"⟩) [Node.mk "a" "t" "folder" (some [])]
    (Node.mk "a" "t" "folder" (some [])) (by decide) (by decide)

/-- Claim C4 (amended): at a valid non-empty path, an update setting
kind "folder" on a node without a `children` attribute yields kind
"folder" with an empty children list; if the node already carries a
children list (a state insertion under an item can produce), that list
is kept unchanged rather than emptied; an update setting kind "item"
always yields kind "item" with `children` entirely absent. -/
theorem kind_update_children_transition (ns : List Node) (p : List Int) (node : Node)
    (tOpt : Option String) (hp : p ≠ []) (hn : nodeAtPath ns p = some node) :
    (update_at ns p (some ⟨tOpt, some "folder"⟩) =
      .ok (replaceAtPath ns p (apply_update node ⟨tOpt, some "folder"⟩),
        apply_update node ⟨tOpt, some "folder"⟩) ∧
     (apply_update node ⟨tOpt, some "folder"⟩).kind = "folder" ∧
     (node.children = none → (apply_update node ⟨tOpt, some "folder"⟩).children = some []) ∧
     (∀ l, node.children = some l →
       (apply_update node ⟨tOpt, some "folder"⟩).children = some l)) ∧
    (update_at ns p (some ⟨tOpt, some "item"⟩) =
      .ok (replaceAtPath ns p (apply_update node ⟨tOpt, some "item"⟩),
        apply_update node ⟨tOpt, some "item"⟩) ∧
     (apply_update node ⟨tOpt, some "item"⟩).kind = "item" ∧
     (apply_update node ⟨tOpt, some "item"⟩).children = none) := by
  refine ⟨⟨?_, kind_apply_update_folder node tOpt, ?_, ?_⟩,
    ?_, kind_apply_update_item node tOpt, children_apply_update_item node tOpt⟩
  · rw [update_at_normal p ns _ hp, hn]
    rfl
  · intro hcn
    rw [children_apply_update_folder node tOpt]
    rw [Node.childrenD, hcn]
    rfl
  · intro l hcl
    rw [children_apply_update_folder node tOpt]
    rw [Node.childrenD, hcl]
    rfl
  · rw [update_at_normal p ns _ hp, hn]
    rfl

/-- Witness for `kind_update_children_transition`: promoting the lone
item of a singleton tree. -/
theorem kind_update_children_transition_witness :
    update_at [Node.mk "a" "t" "item" none] [0] (some ⟨none, some "folder"⟩) =
      .ok (replaceAtPath [Node.mk "a" "t" "item" none] [0]
          (apply_update (Node.mk "a" "t" "item" none) ⟨none, some "folder"⟩),
        apply_update (Node.mk "a" "t" "item" none) ⟨none, some "folder"⟩) :=
  ((kind_update_children_transition [Node.mk "a" "t" "item" none] [0]
    (Node.mk "a" "t" "item" none) none (by decide) (by decide)).1).1

/-- Claim C6 (confirmed): a successful delete at a non-empty path
`q ++ [i]` removes exactly the node at index `i` of the sibling list
reached by `q`: that list shrinks by exactly one (the element erased at
`i`), the removed node is returned, the rest of the tree is the erasure
at that path, and the total node count drops by the removed subtree's
whole size, so no node of the removed subtree remains reachable. -/
theorem delete_removes_exactly_one (ns : List Node) (q : List Int) (i : Int)
    (t' : List Node) (removed : Node)
    (h : delete_at ns (q ++ [i]) = .ok (t', removed)) :
    ∃ l, siblingsAt ns q = some l ∧ 0 ≤ i ∧ i.toNat < l.length ∧
      removed = l.getD i.toNat default ∧
      t' = eraseAtPath ns (q ++ [i]) ∧
      siblingsAt t' q = some (l.eraseIdx i.toNat) ∧
      (l.eraseIdx i.toNat).length + 1 = l.length ∧
      listSize t' + nodeSize removed = listSize ns := by
  have hp : q ++ [i] ≠ ([] : List Int) := by simp
  rw [delete_at_normal _ ns hp] at h
  cases hnp : nodeAtPath ns (q ++ [i]) with
  | none => rw [hnp] at h; simp at h
  | some node =>
    rw [hnp] at h
    simp only [Except.ok.injEq, Prod.mk.injEq] at h
    obtain ⟨ht, hr⟩ := h
    subst ht
    subst hr
    rw [nodeAtPath_append] at hnp
    cases hsq : siblingsAt ns q with
    | none => simp only [hsq] at hnp; cases hnp
    | some l =>
      simp only [hsq] at hnp
      by_cases hb : 0 ≤ i ∧ i < (l.length : Int)
      · rw [if_pos hb] at hnp
        have hlt : i.toNat < l.length := by omega
        have hrm : l.getD i.toNat default = node := by simpa using hnp
        have hsz := listSize_eraseIdx l i.toNat hlt
        have hmod := listSize_modifyAt (fun m => m.eraseIdx i.toNat) q ns l hsq
        refine ⟨l, rfl, hb.1, hlt, hrm.symm, rfl, ?_, ?_, ?_⟩
        · rw [eraseAtPath_append]
          exact siblingsAt_modifyAt _ q ns l hsq
        · rw [List.length_eraseIdx]
          simp only [hlt, if_pos]
          omega
        · rw [eraseAtPath_append]
          rw [hrm] at hsz
          simp only at hmod
          omega
      · rw [if_neg hb] at hnp; cases hnp

/-- Witness for `delete_removes_exactly_one`: deleting the only child
of a folder under path [0, 0]. -/
theorem delete_removes_exactly_one_witness :
    ∃ l, siblingsAt
        [Node.mk "a" "t" "folder" (some [Node.mk "b" "s" "item" none])] [0] = some l ∧
      0 ≤ (0 : Int) ∧ (0 : Int).toNat < l.length ∧
      Node.mk "b" "s" "item" none = l.getD (0 : Int).toNat default ∧
      [Node.mk "a" "t" "folder" (some [])] =
        eraseAtPath [Node.mk "a" "t" "folder" (some [Node.mk "b" "s" "item" none])]
          ([0] ++ [0]) ∧
      siblingsAt [Node.mk "a" "t" "folder" (some [])] [0] =
        some (l.eraseIdx (0 : Int).toNat) ∧
      (l.eraseIdx (0 : Int).toNat).length + 1 = l.length ∧
      listSize [Node.mk "a" "t" "folder" (some [])] + nodeSize (Node.mk "b" "s" "item" none) =
        listSize [Node.mk "a" "t" "folder" (some [Node.mk "b" "s" "item" none])] :=
  delete_removes_exactly_one
    [Node.mk "a" "t" "folder" (some [Node.mk "b" "s" "item" none])] [0] 0
    [Node.mk "a" "t" "folder" (some [])] (Node.mk "b" "s" "item" none) (by decide)

/-- Claim C10 (confirmed): a successful update at non-empty path
`q ++ [i]` replaces only the addressed node: the result is exactly the
original tree with that one position replaced, the replacement keeps
the node's id and changes its children at most by materialising an
empty list or dropping the attribute, the containing sibling list keeps
its length, and every other element of that list is unchanged. -/
theorem update_frame_preserving (ns : List Node) (q : List Int) (i : Int)
    (pl : Option NodeUpdate) (t' : List Node) (n' : Node)
    (h : update_at ns (q ++ [i]) pl = .ok (t', n')) :
    ∃ node l, nodeAtPath ns (q ++ [i]) = some node ∧
      n' = apply_update_opt node pl ∧
      n'.id = node.id ∧
      (n'.children = node.children ∨ (n'.children = some [] ∧ node.children = none) ∨
        n'.children = none) ∧
      t' = replaceAtPath ns (q ++ [i]) n' ∧
      siblingsAt ns q = some l ∧ i.toNat < l.length ∧
      siblingsAt t' q = some (l.set i.toNat n') ∧
      (l.set i.toNat n').length = l.length ∧
      ∀ j, j < l.length → j ≠ i.toNat →
        (l.set i.toNat n').getD j default = l.getD j default := by
  have hp : q ++ [i] ≠ ([] : List Int) := by simp
  rw [update_at_normal _ ns pl hp] at h
  cases hnp : nodeAtPath ns (q ++ [i]) with
  | none => rw [hnp] at h; simp at h
  | some node =>
    rw [hnp] at h
    simp only [Except.ok.injEq, Prod.mk.injEq] at h
    obtain ⟨ht, hn⟩ := h
    subst ht
    subst hn
    have hnp' := hnp
    rw [nodeAtPath_append] at hnp'
    cases hsq : siblingsAt ns q with
    | none => simp only [hsq] at hnp'; cases hnp'
    | some l =>
      simp only [hsq] at hnp'
      by_cases hb : 0 ≤ i ∧ i < (l.length : Int)
      · rw [if_pos hb] at hnp'
        have hlt : i.toNat < l.length := by omega
        refine ⟨node, l, rfl, rfl, id_apply_update_opt node pl,
          children_apply_update_opt node pl, rfl, rfl, hlt, ?_, by simp, ?_⟩
        · rw [replaceAtPath_append]
          exact siblingsAt_modifyAt _ q ns l hsq
        · intro j hj hji
          exact List.getD_set_ne l i.toNat j _ (fun he => hji he.symm)
      · rw [if_neg hb] at hnp'; cases hnp'

/-- Witness for `update_frame_preserving`: renaming the second of two
root items touches only that node. -/
theorem update_frame_preserving_witness :
    ∃ node l,
      nodeAtPath [Node.mk "a" "x" "item" none, Node.mk "b" "y" "item" none]
        (([] : List Int) ++ [1]) = some node ∧
      Node.mk "b" "z" "item" none = apply_update_opt node (some ⟨some "z", none⟩) ∧
      (Node.mk "b" "z" "item" none).id = node.id ∧
      ((Node.mk "b" "z" "item" none).children = node.children ∨
        ((Node.mk "b" "z" "item" none).children = some [] ∧ node.children = none) ∨
        (Node.mk "b" "z" "item" none).children = none) ∧
      [Node.mk "a" "x" "item" none, Node.mk "b" "z" "item" none] =
        replaceAtPath [Node.mk "a" "x" "item" none, Node.mk "b" "y" "item" none]
          (([] : List Int) ++ [1]) (Node.mk "b" "z" "item" none) ∧
      siblingsAt [Node.mk "a" "x" "item" none, Node.mk "b" "y" "item" none] [] = some l ∧
      (1 : Int).toNat < l.length ∧
      siblingsAt [Node.mk "a" "x" "item" none, Node.mk "b" "z" "item" none] [] =
        some (l.set (1 : Int).toNat (Node.mk "b" "z" "item" none)) ∧
      (l.set (1 : Int).toNat (Node.mk "b" "z" "item" none)).length = l.length ∧
      ∀ j, j < l.length → j ≠ (1 : Int).toNat →
        (l.set (1 : Int).toNat (Node.mk "b" "z" "item" none)).getD j default =
          l.getD j default :=
  update_frame_preserving [Node.mk "a" "x" "item" none, Node.mk "b" "y" "item" none]
    [] 1 (some ⟨some "z", none⟩) [Node.mk "a" "x" "item" none, Node.mk "b" "z" "item" none]
    (Node.mk "b" "z" "item" none) (by decide)

/-- Claim C8 (confirmed): applying the same update twice at the same
path gives the same tree and node as applying it once; in particular a
repeated kind update is a no-op on the structure. -/
theorem kind_update_idempotent (ns : List Node) (p : List Int) (pl : Option NodeUpdate)
    (t1 : List Node) (n1 : Node) (h : update_at ns p pl = .ok (t1, n1)) :
    update_at t1 p pl = .ok (t1, n1) := by
  by_cases hp : p = []
  · subst hp; exact absurd h (by simp [update_at])
  · rw [update_at_normal p ns pl hp] at h
    cases hnp : nodeAtPath ns p with
    | none => rw [hnp] at h; simp at h
    | some node =>
      rw [hnp] at h
      simp only [Except.ok.injEq, Prod.mk.injEq] at h
      obtain ⟨ht, hn⟩ := h
      subst ht
      subst hn
      rcases List.eq_nil_or_concat p with rfl | ⟨q, i, hqi⟩
      · exact absurd rfl hp
      · rw [List.concat_eq_append] at hqi
        subst hqi
        have hnp' := hnp
        rw [nodeAtPath_append] at hnp'
        cases hsq : siblingsAt ns q with
        | none => simp only [hsq] at hnp'; cases hnp'
        | some l =>
          simp only [hsq] at hnp'
          by_cases hb : 0 ≤ i ∧ i < (l.length : Int)
          · rw [if_pos hb] at hnp'
            have hlt : i.toNat < l.length := by omega
            have hsib1 : siblingsAt
                (replaceAtPath ns (q ++ [i]) (apply_update_opt node pl)) q =
                some (l.set i.toNat (apply_update_opt node pl)) := by
              rw [replaceAtPath_append]
              exact siblingsAt_modifyAt _ q ns l hsq
            have hb2 : 0 ≤ i ∧
                i < (((l.set i.toNat (apply_update_opt node pl)).length : Nat) : Int) := by
              simp only [List.length_set]
              omega
            have hnp1 : nodeAtPath
                (replaceAtPath ns (q ++ [i]) (apply_update_opt node pl)) (q ++ [i]) =
                some (apply_update_opt node pl) := by
              rw [nodeAtPath_append]
              simp only [hsib1]
              rw [if_pos hb2]
              rw [List.getD_set_self _ _ _ hlt]
            rw [update_at_normal _ _ pl hp, hnp1]
            show Except.ok
                (replaceAtPath (replaceAtPath ns (q ++ [i]) (apply_update_opt node pl))
                  (q ++ [i]) (apply_update_opt (apply_update_opt node pl) pl),
                  apply_update_opt (apply_update_opt node pl) pl) =
              Except.ok (replaceAtPath ns (q ++ [i]) (apply_update_opt node pl),
                apply_update_opt node pl)
            rw [apply_update_opt_idem node pl]
            rw [replaceAtPath_append, replaceAtPath_append]
            rw [modifyAt_modifyAt _ q ns l hsq (fun m => List.set_set _ _ m _)]
          · rw [if_neg hb] at hnp'; cases hnp'

/-- Witness for `kind_update_idempotent`: repeating the promotion of a
root item to a folder. -/
theorem kind_update_idempotent_witness :
    update_at [Node.mk "a" "t" "folder" (some [])] [0] (some ⟨none, some "folder"⟩) =
      .ok ([Node.mk "a" "t" "folder" (some [])], Node.mk "a" "t" "folder" (some [])) :=
  kind_update_idempotent [Node.mk "a" "t" "item" none] [0] (some ⟨none, some "folder"⟩)
    [Node.mk "a" "t" "folder" (some [])] (Node.mk "a" "t" "folder" (some [])) (by decide)
